import Mathlib

/-!
Shallow embedding of the LMC (Little Man Computer) assembler and execution
engine from `src/lib.rs`, together with theorems about its behaviour.

Machine words are embedded as `Int` (the Rust code uses `i16`; all values
manipulated by well-formed programs are three-digit decimals, far from the
16-bit boundary).  The 100-word memory image is embedded as a total function
`Nat → Int`; the execution engine only ever indexes it at addresses in
`[0, 99]` (proved below).  Fallible operations return `Except`; a Rust panic
(array write out of bounds in `assemble`) is modelled as a distinct error.
-/

namespace LMC

/-- Embedding of `enum Operand`: a literal value or a symbolic label
reference. -/
inductive Operand where
  | Value (val : Int)
  | Label (lbl : String)
deriving DecidableEq

/-- The twelve-opcode instruction vocabulary (`enum Instruction`). -/
inductive Instruction where
  | LDA (operand : Operand)
  | STA (operand : Operand)
  | ADD (operand : Operand)
  | SUB (operand : Operand)
  | INP
  | OUT
  | OTC
  | HLT
  | BRZ (operand : Operand)
  | BRP (operand : Operand)
  | BRA (operand : Operand)
  | DAT (operand : Operand)
deriving DecidableEq

/-- Embedding of `Instruction::get_base`: the per-opcode base encoding
constant. -/
def Instruction.get_base : Instruction → Int
  | .LDA _ => 500
  | .STA _ => 300
  | .ADD _ => 100
  | .SUB _ => 200
  | .INP => 901
  | .OUT => 902
  | .OTC => 922
  | .HLT => 0
  | .BRZ _ => 700
  | .BRP _ => 800
  | .BRA _ => 600
  | .DAT _ => 0

/-- Embedding of `enum Label`: an optional label attached to a program
line. -/
inductive Label where
  | LBL (name : String)
  | None
deriving DecidableEq

/-- Embedding of `type Program = Vec<(Label, Instruction)>`. -/
abbrev Program := List (Label × Instruction)

/-- Outcome of `Instruction::from_string`: `Some(instruction)`, a panic from
`Option::expect` when a required operand is missing, or `None` for an
unrecognized mnemonic. -/
inductive FromStringResult where
  | ok (instruction : Instruction)
  | missingOperand (msg : String)
  | noSuchInstruction
deriving DecidableEq

/-- The uppercasing applied by `opcode.to_uppercase()` before mnemonic
matching (character-wise uppercasing; mnemonics are ASCII). -/
def toUppercase (s : String) : String := String.mk (s.data.map Char.toUpper)

/-- Embedding of `Instruction::from_string`: build an instruction from a mnemonic
(matched after uppercasing) and an optional operand. -/
def Instruction.from_string (opcode : String) (operand : Option Operand) :
    FromStringResult :=
  match toUppercase opcode with
  | "LDA" =>
    match operand with
    | some op => .ok (.LDA op)
    | none => .missingOperand "LDA requires an operand"
  | "STA" =>
    match operand with
    | some op => .ok (.STA op)
    | none => .missingOperand "STA requires an operand"
  | "ADD" =>
    match operand with
    | some op => .ok (.ADD op)
    | none => .missingOperand "ADD requires an operand"
  | "SUB" =>
    match operand with
    | some op => .ok (.SUB op)
    | none => .missingOperand "SUB requires an operand"
  | "INP" => .ok .INP
  | "OUT" => .ok .OUT
  | "OTC" => .ok .OTC
  | "HLT" => .ok .HLT
  | "BRZ" =>
    match operand with
    | some op => .ok (.BRZ op)
    | none => .missingOperand "BRZ requires an operand"
  | "BRP" =>
    match operand with
    | some op => .ok (.BRP op)
    | none => .missingOperand "BRP requires an operand"
  | "BRA" =>
    match operand with
    | some op => .ok (.BRA op)
    | none => .missingOperand "BRA requires an operand"
  | "DAT" => .ok (.DAT (operand.getD (.Value 0)))
  | _ => .noSuchInstruction

/-- Errors surfaced by operand resolution / assembly.  `indexOutOfBounds`
models the Rust panic on `ram[i]` when a program is longer than 100 lines. -/
inductive AsmError where
  | invalidLabel (lbl : String)
  | indexOutOfBounds
deriving DecidableEq

/-- The linear scan inside `Operand::get_value`: find the ordinal position of
the first program pair whose label matches `lbl`. -/
def findLabel (lbl : String) (pos : Int) :
    List (Label × Instruction) → Except AsmError Int
  | [] => .error (.invalidLabel lbl)
  | (label, _) :: rest =>
    if label = Label.LBL lbl then .ok pos else findLabel lbl (pos + 1) rest

/-- Embedding of `Operand::get_value`: a literal resolves to itself, a label reference to
the position of the first matching label in the program. -/
def Operand.get_value (op : Operand) (program : Program) : Except AsmError Int :=
  match op with
  | .Value val => .ok val
  | .Label lbl => findLabel lbl 0 program

/-- The machine word computed for one instruction by the `match` inside
`assemble`. -/
def assembleWord (instruction : Instruction) (program : Program) :
    Except AsmError Int :=
  match instruction with
  | .BRZ operand | .BRP operand | .BRA operand => do
    let v ← operand.get_value program
    pure (instruction.get_base + v)
  | .DAT operand => operand.get_value program
  | .LDA operand | .STA operand | .ADD operand | .SUB operand => do
    let v ← operand.get_value program
    pure (instruction.get_base + v)
  | .INP | .OUT | .OTC | .HLT => pure instruction.get_base

/-- The loop inside `assemble`: write the word for each remaining pair at
successive indices.  The Rust write `ram[i] = w` panics for `i ≥ 100`;
the resolution of the word happens first (the right-hand side is evaluated
before the indexing panics). -/
def assembleGo (program : Program) (i : Nat) :
    List (Label × Instruction) → (Nat → Int) → Except AsmError (Nat → Int)
  | [], ram => .ok ram
  | (_, instruction) :: rest, ram => do
    let w ← assembleWord instruction program
    if i < 100 then
      assembleGo program (i + 1) rest (Function.update ram i w)
    else
      .error .indexOutOfBounds

/-- Embedding of `assemble`: produce the 100-word memory image
(zero-initialized) from a
program, resolving every operand. -/
def assemble (program : Program) : Except AsmError (Nat → Int) :=
  assembleGo program 0 program (fun _ => 0)

/-- Embedding of `enum Output`: a value emitted through the I/O boundary.
Here `char` carries
the code point obtained by the Rust cast `acc as u8` (the low 8 bits of the
accumulator, i.e. `acc` reduced modulo 256 into `[0, 255]`). -/
inductive Output where
  | char (code : Int)
  | int (i : Int)
deriving DecidableEq

/-- Embedding of `struct ExecutionState`: the five registers and the memory
image. -/
structure ExecutionState where
  pc : Int
  cir : Int
  mar : Int
  mdr : Int
  acc : Int
  ram : Nat → Int

/-- The result of one `ExecutionState::step` call.  The Rust method mutates
`self` in place and returns `Result<(), String>`, so the (partially updated)
state is available even when an error is returned; the I/O handler is
modelled by a list of pending inputs and the list of outputs emitted during
the step. -/
structure StepResult where
  state : ExecutionState
  inputs : List Int
  outputs : List Output
  error : Option String

/-- Embedding of `ExecutionState::step`: one fetch-decode-execute cycle. -/
def step (s : ExecutionState) (inputs : List Int) : StepResult :=
  let mar := s.pc
  let pc := s.pc + 1
  let mdr := s.ram mar.toNat
  let cir := mdr
  let f : ExecutionState := { s with mar := mar, pc := pc, mdr := mdr, cir := cir }
  if cir = 0 then
    ⟨{ f with pc := -1 }, inputs, [], none⟩
  else if cir = 901 then
    let res := inputs.headD 0
    if res < -999 ∨ 999 < res then
      ⟨f, inputs.tail, [], some "Number out of range"⟩
    else
      ⟨{ f with acc := res }, inputs.tail, [], none⟩
  else if cir = 902 then
    ⟨f, inputs, [.int f.acc], none⟩
  else if cir = 922 then
    ⟨f, inputs, [.char (f.acc % 256)], none⟩
  else if 100 ≤ cir ∧ cir ≤ 199 then
    let mar := cir - 100
    let acc := f.acc + f.ram mar.toNat
    let acc :=
      if 999 < acc then -999 + (acc - 999) - 1
      else if acc < -999 then 999 - (-999 - acc) + 1
      else acc
    ⟨{ f with mar := mar, acc := acc }, inputs, [], none⟩
  else if 200 ≤ cir ∧ cir ≤ 299 then
    let mar := cir - 200
    let acc := f.acc - f.ram mar.toNat
    let acc :=
      if acc < -999 then 999 - (-999 - acc) + 1
      else if 999 < acc then -999 + (acc - 999) - 1
      else acc
    ⟨{ f with mar := mar, acc := acc }, inputs, [], none⟩
  else if 300 ≤ cir ∧ cir ≤ 399 then
    let mar := cir - 300
    ⟨{ f with mar := mar, ram := Function.update f.ram mar.toNat f.acc }, inputs, [], none⟩
  else if 500 ≤ cir ∧ cir ≤ 599 then
    let mar := cir - 500
    ⟨{ f with mar := mar, acc := f.ram mar.toNat }, inputs, [], none⟩
  else if 600 ≤ cir ∧ cir ≤ 699 then
    let mar := cir - 600
    ⟨{ f with mar := mar, pc := mar }, inputs, [], none⟩
  else if 700 ≤ cir ∧ cir ≤ 799 then
    let mar := cir - 700
    if f.acc = 0 then
      ⟨{ f with mar := mar, pc := mar }, inputs, [], none⟩
    else
      ⟨{ f with mar := mar }, inputs, [], none⟩
  else if 800 ≤ cir ∧ cir ≤ 899 then
    let mar := cir - 800
    if 0 < f.acc then
      ⟨{ f with mar := mar, pc := mar }, inputs, [], none⟩
    else
      ⟨{ f with mar := mar }, inputs, [], none⟩
  else
    ⟨f, inputs, [], some ("Invalid instruction: " ++ toString cir)⟩

/-- Outcome of the `run` loop: normal termination (with the final state, the
outputs emitted and the number of steps executed), an aborted run carrying
the error message and the outputs already emitted, or fuel exhaustion (the
Rust loop is unbounded; `outOfFuel` never occurs for halting programs when
enough fuel is supplied). -/
inductive RunResult where
  | halted (s : ExecutionState) (outputs : List Output) (steps : Nat)
  | failed (msg : String) (outputs : List Output)
  | outOfFuel

/-- The loop body of `run`: execute a step, propagate errors, stop when
`pc == -1` (HLT sentinel) or `pc > 99` (fell off the end of memory). -/
def runLoop (fuel : Nat) (s : ExecutionState) (inputs : List Int)
    (outs : List Output) (steps : Nat) : RunResult :=
  match fuel with
  | 0 => .outOfFuel
  | fuel + 1 =>
    let r := step s inputs
    match r.error with
    | some msg => .failed msg outs
    | none =>
      let outs := outs ++ r.outputs
      let steps := steps + 1
      if r.state.pc = -1 then .halted r.state outs steps
      else if 99 < r.state.pc then .halted r.state outs steps
      else runLoop fuel r.state r.inputs outs steps

/-- Embedding of `run`: execute a memory image from the initial state
(pc = 0, all other
registers zero). -/
def run (program : Nat → Int) (inputs : List Int) (fuel : Nat) : RunResult :=
  runLoop fuel ⟨0, 0, 0, 0, 0, program⟩ inputs [] 0

/-- The step count of a normally halted run. -/
def RunResult.stepsOf : RunResult → Option Nat
  | .halted _ _ steps => some steps
  | _ => none

/-- The outputs of a normally halted run. -/
def RunResult.outputsOf : RunResult → Option (List Output)
  | .halted _ outputs _ => some outputs
  | _ => none

/-- The final program counter of a normally halted run. -/
def RunResult.pcOf : RunResult → Option Int
  | .halted s _ _ => some s.pc
  | _ => none

/-- Variant of `if_neg` used to discharge decode-range conditions. -/
theorem iteNo {c : Prop} [Decidable c] {α : Sort u} {t e : α} (h : ¬c) :
    (if c then t else e) = e := if_neg h

/-- Variant of `if_pos` used to discharge decode-range conditions. -/
theorem iteYes {c : Prop} [Decidable c] {α : Sort u} {t e : α} (h : c) :
    (if c then t else e) = t := if_pos h

/-- The set of instruction words the `match` in `step` can decode. -/
def Decodable (w : Int) : Prop :=
  w = 0 ∨ w = 901 ∨ w = 902 ∨ w = 922 ∨ (100 ≤ w ∧ w ≤ 399) ∨ (500 ≤ w ∧ w ≤ 899)

instance : DecidablePred Decodable := fun w => by
  unfold Decodable
  exact inferInstance

/-- Characterization of a step fetching the word 0 (HLT). -/
theorem step_hlt (s : ExecutionState) (inputs : List Int)
    (h : s.ram s.pc.toNat = 0) :
    step s inputs =
      ⟨{ s with mar := s.pc, pc := -1, mdr := 0, cir := 0 }, inputs, [], none⟩ := by
  simp [step, h]

/-- Characterization of a step fetching 901 (INP) with an in-range input. -/
theorem step_inp_ok (s : ExecutionState) (inputs : List Int)
    (h : s.ram s.pc.toNat = 901)
    (hlo : -999 ≤ inputs.headD 0) (hhi : inputs.headD 0 ≤ 999) :
    step s inputs =
      ⟨{ s with
          mar := s.pc
          pc := s.pc + 1
          mdr := 901
          cir := 901
          acc := inputs.headD 0 },
        inputs.tail, [], none⟩ := by
  have hni : ¬(inputs.headD 0 < -999 ∨ 999 < inputs.headD 0) := by omega
  simp only [step, h]
  rw [if_neg hni]
  norm_num

/-- Characterization of a step fetching 901 (INP) with an out-of-range
input: the error is returned before the accumulator is updated. -/
theorem step_inp_err (s : ExecutionState) (inputs : List Int)
    (h : s.ram s.pc.toNat = 901)
    (hout : inputs.headD 0 < -999 ∨ 999 < inputs.headD 0) :
    step s inputs =
      ⟨{ s with mar := s.pc, pc := s.pc + 1, mdr := 901, cir := 901 },
        inputs.tail, [], some "Number out of range"⟩ := by
  simp only [step, h]
  rw [if_pos hout]
  norm_num

/-- Characterization of a step fetching 902 (OUT). -/
theorem step_out (s : ExecutionState) (inputs : List Int)
    (h : s.ram s.pc.toNat = 902) :
    step s inputs =
      ⟨{ s with mar := s.pc, pc := s.pc + 1, mdr := 902, cir := 902 },
        inputs, [.int s.acc], none⟩ := by
  simp only [step, h]
  norm_num

/-- Characterization of a step fetching 922 (OTC). -/
theorem step_otc (s : ExecutionState) (inputs : List Int)
    (h : s.ram s.pc.toNat = 922) :
    step s inputs =
      ⟨{ s with mar := s.pc, pc := s.pc + 1, mdr := 922, cir := 922 },
        inputs, [.char (s.acc % 256)], none⟩ := by
  simp only [step, h]
  norm_num

/-- Characterization of a step fetching an ADD word (100-199). -/
theorem step_add (s : ExecutionState) (inputs : List Int)
    (h1 : 100 ≤ s.ram s.pc.toNat) (h2 : s.ram s.pc.toNat ≤ 199) :
    step s inputs =
      ⟨{ s with
          mar := s.ram s.pc.toNat - 100
          pc := s.pc + 1
          mdr := s.ram s.pc.toNat
          cir := s.ram s.pc.toNat
          acc :=
            if 999 < s.acc + s.ram (s.ram s.pc.toNat - 100).toNat then
              -999 + (s.acc + s.ram (s.ram s.pc.toNat - 100).toNat - 999) - 1
            else if s.acc + s.ram (s.ram s.pc.toNat - 100).toNat < -999 then
              999 - (-999 - (s.acc + s.ram (s.ram s.pc.toNat - 100).toNat)) + 1
            else s.acc + s.ram (s.ram s.pc.toNat - 100).toNat },
        inputs, [], none⟩ := by
  simp only [step]
  rw [iteNo (by omega), iteNo (by omega), iteNo (by omega), iteNo (by omega),
    iteYes (by omega)]

/-- Characterization of a step fetching a SUB word (200-299). -/
theorem step_sub (s : ExecutionState) (inputs : List Int)
    (h1 : 200 ≤ s.ram s.pc.toNat) (h2 : s.ram s.pc.toNat ≤ 299) :
    step s inputs =
      ⟨{ s with
          mar := s.ram s.pc.toNat - 200
          pc := s.pc + 1
          mdr := s.ram s.pc.toNat
          cir := s.ram s.pc.toNat
          acc :=
            if s.acc - s.ram (s.ram s.pc.toNat - 200).toNat < -999 then
              999 - (-999 - (s.acc - s.ram (s.ram s.pc.toNat - 200).toNat)) + 1
            else if 999 < s.acc - s.ram (s.ram s.pc.toNat - 200).toNat then
              -999 + (s.acc - s.ram (s.ram s.pc.toNat - 200).toNat - 999) - 1
            else s.acc - s.ram (s.ram s.pc.toNat - 200).toNat },
        inputs, [], none⟩ := by
  simp only [step]
  rw [iteNo (by omega), iteNo (by omega), iteNo (by omega), iteNo (by omega),
    iteNo (by omega), iteYes (by omega)]

/-- Characterization of a step fetching a STA word (300-399). -/
theorem step_sta (s : ExecutionState) (inputs : List Int)
    (h1 : 300 ≤ s.ram s.pc.toNat) (h2 : s.ram s.pc.toNat ≤ 399) :
    step s inputs =
      ⟨{ s with
          mar := s.ram s.pc.toNat - 300
          pc := s.pc + 1
          mdr := s.ram s.pc.toNat
          cir := s.ram s.pc.toNat
          ram := Function.update s.ram (s.ram s.pc.toNat - 300).toNat s.acc },
        inputs, [], none⟩ := by
  simp only [step]
  rw [iteNo (by omega), iteNo (by omega), iteNo (by omega), iteNo (by omega),
    iteNo (by omega), iteNo (by omega), iteYes (by omega)]

/-- Characterization of a step fetching an LDA word (500-599). -/
theorem step_lda (s : ExecutionState) (inputs : List Int)
    (h1 : 500 ≤ s.ram s.pc.toNat) (h2 : s.ram s.pc.toNat ≤ 599) :
    step s inputs =
      ⟨{ s with
          mar := s.ram s.pc.toNat - 500
          pc := s.pc + 1
          mdr := s.ram s.pc.toNat
          cir := s.ram s.pc.toNat
          acc := s.ram (s.ram s.pc.toNat - 500).toNat },
        inputs, [], none⟩ := by
  simp only [step]
  rw [iteNo (by omega), iteNo (by omega), iteNo (by omega), iteNo (by omega),
    iteNo (by omega), iteNo (by omega), iteNo (by omega), iteYes (by omega)]

/-- Characterization of a step fetching a BRA word (600-699). -/
theorem step_bra (s : ExecutionState) (inputs : List Int)
    (h1 : 600 ≤ s.ram s.pc.toNat) (h2 : s.ram s.pc.toNat ≤ 699) :
    step s inputs =
      ⟨{ s with
          mar := s.ram s.pc.toNat - 600
          pc := s.ram s.pc.toNat - 600
          mdr := s.ram s.pc.toNat
          cir := s.ram s.pc.toNat },
        inputs, [], none⟩ := by
  simp only [step]
  rw [iteNo (by omega), iteNo (by omega), iteNo (by omega), iteNo (by omega),
    iteNo (by omega), iteNo (by omega), iteNo (by omega), iteNo (by omega),
    iteYes (by omega)]

/-- Characterization of a step fetching a BRZ word (700-799): the branch is
taken exactly when the accumulator is zero. -/
theorem step_brz (s : ExecutionState) (inputs : List Int)
    (h1 : 700 ≤ s.ram s.pc.toNat) (h2 : s.ram s.pc.toNat ≤ 799) :
    step s inputs =
      ⟨{ s with
          mar := s.ram s.pc.toNat - 700
          pc := if s.acc = 0 then s.ram s.pc.toNat - 700 else s.pc + 1
          mdr := s.ram s.pc.toNat
          cir := s.ram s.pc.toNat },
        inputs, [], none⟩ := by
  simp only [step]
  rw [iteNo (by omega), iteNo (by omega), iteNo (by omega), iteNo (by omega),
    iteNo (by omega), iteNo (by omega), iteNo (by omega), iteNo (by omega),
    iteNo (by omega), iteYes (by omega)]
  by_cases hacc : s.acc = 0 <;> simp only [if_pos, if_neg, hacc, if_true, if_false]

/-- Characterization of a step fetching a BRP word (800-899): the branch is
taken exactly when the accumulator is strictly positive. -/
theorem step_brp (s : ExecutionState) (inputs : List Int)
    (h1 : 800 ≤ s.ram s.pc.toNat) (h2 : s.ram s.pc.toNat ≤ 899) :
    step s inputs =
      ⟨{ s with
          mar := s.ram s.pc.toNat - 800
          pc := if 0 < s.acc then s.ram s.pc.toNat - 800 else s.pc + 1
          mdr := s.ram s.pc.toNat
          cir := s.ram s.pc.toNat },
        inputs, [], none⟩ := by
  simp only [step]
  rw [iteNo (by omega), iteNo (by omega), iteNo (by omega), iteNo (by omega),
    iteNo (by omega), iteNo (by omega), iteNo (by omega), iteNo (by omega),
    iteNo (by omega), iteNo (by omega), iteYes (by omega)]
  by_cases hacc : 0 < s.acc <;> simp only [if_pos, if_neg, hacc, if_true, if_false]

/-- Characterization of a step fetching an undecodable word. -/
theorem step_invalid (s : ExecutionState) (inputs : List Int)
    (h : ¬Decodable (s.ram s.pc.toNat)) :
    step s inputs =
      ⟨{ s with
          mar := s.pc
          pc := s.pc + 1
          mdr := s.ram s.pc.toNat
          cir := s.ram s.pc.toNat },
        inputs, [],
        some ("Invalid instruction: " ++ toString (s.ram s.pc.toNat))⟩ := by
  simp only [Decodable] at h
  simp only [step]
  rw [iteNo (by omega), iteNo (by omega), iteNo (by omega), iteNo (by omega),
    iteNo (by omega), iteNo (by omega), iteNo (by omega), iteNo (by omega),
    iteNo (by omega), iteNo (by omega), iteNo (by omega)]

/-- Exhaustive split of an instruction word into the decode classes of
`step`, with the undecodable class last. -/
theorem decode_cases (w : Int) :
    w = 0 ∨ w = 901 ∨ w = 902 ∨ w = 922 ∨
      (100 ≤ w ∧ w ≤ 199) ∨ (200 ≤ w ∧ w ≤ 299) ∨ (300 ≤ w ∧ w ≤ 399) ∨
      (500 ≤ w ∧ w ≤ 599) ∨ (600 ≤ w ∧ w ≤ 699) ∨ (700 ≤ w ∧ w ≤ 799) ∨
      (800 ≤ w ∧ w ≤ 899) ∨ ¬Decodable w := by
  simp only [Decodable]
  omega

/-- C1: for every step executing ADD (cir in 100-199) or SUB (cir in
200-299), after adding or subtracting memory[mar] to/from acc, a result
exceeding 999 becomes `-999 + (result - 999) - 1` and a result below -999
becomes `999 - (-999 - result) + 1` (exact, non-modular wraparound). -/
theorem c1_accumulator_wraparound (s : ExecutionState) (inputs : List Int) :
    (100 ≤ s.ram s.pc.toNat → s.ram s.pc.toNat ≤ 199 →
      (999 < s.acc + s.ram (s.ram s.pc.toNat - 100).toNat →
        (step s inputs).state.acc =
          -999 + (s.acc + s.ram (s.ram s.pc.toNat - 100).toNat - 999) - 1) ∧
      (s.acc + s.ram (s.ram s.pc.toNat - 100).toNat < -999 →
        (step s inputs).state.acc =
          999 - (-999 - (s.acc + s.ram (s.ram s.pc.toNat - 100).toNat)) + 1)) ∧
    (200 ≤ s.ram s.pc.toNat → s.ram s.pc.toNat ≤ 299 →
      (999 < s.acc - s.ram (s.ram s.pc.toNat - 200).toNat →
        (step s inputs).state.acc =
          -999 + (s.acc - s.ram (s.ram s.pc.toNat - 200).toNat - 999) - 1) ∧
      (s.acc - s.ram (s.ram s.pc.toNat - 200).toNat < -999 →
        (step s inputs).state.acc =
          999 - (-999 - (s.acc - s.ram (s.ram s.pc.toNat - 200).toNat)) + 1)) := by
  constructor
  · intro h1 h2
    rw [step_add s inputs h1 h2]
    constructor
    · intro hov
      dsimp only
      rw [if_pos hov]
    · intro hun
      dsimp only
      rw [iteNo (by omega), if_pos hun]
  · intro h1 h2
    rw [step_sub s inputs h1 h2]
    constructor
    · intro hov
      dsimp only
      rw [iteNo (by omega), if_pos hov]
    · intro hun
      dsimp only
      rw [if_pos hun]

/-- Memory image for the C1 witness: `ADD 1` at address 0, the value 2 at
address 1. -/
def c1AddRam : Nat → Int := fun i => if i = 0 then 101 else if i = 1 then 2 else 0

/-- Memory image for the C1 witness: `SUB 1` at address 0, the value 2 at
address 1. -/
def c1SubRam : Nat → Int := fun i => if i = 0 then 201 else if i = 1 then 2 else 0

/-- Witness for C1: acc=999 then ADD of memory value 2 yields acc=-998, and
acc=-999 then SUB of memory value 2 yields acc=998. -/
theorem c1_accumulator_wraparound_witness :
    (step ⟨0, 0, 0, 0, 999, c1AddRam⟩ []).state.acc = -998 ∧
    (step ⟨0, 0, 0, 0, -999, c1SubRam⟩ []).state.acc = 998 := by
  constructor
  · have h := ((c1_accumulator_wraparound ⟨0, 0, 0, 0, 999, c1AddRam⟩ []).1
      (by decide) (by decide)).1 (by decide)
    simpa [c1AddRam] using h
  · have h := ((c1_accumulator_wraparound ⟨0, 0, 0, 0, -999, c1SubRam⟩ []).2
      (by decide) (by decide)).2 (by decide)
    simpa [c1SubRam] using h

/-- C9: STA is the only instruction that mutates the memory image: a step
whose fetched word lies outside 300-399 leaves every memory cell unchanged,
and a STA step writes acc into cell cir-300 and leaves every other cell and
the accumulator unchanged. -/
theorem c9_sta_only_memory_mutation (s : ExecutionState) (inputs : List Int) :
    (¬(300 ≤ s.ram s.pc.toNat ∧ s.ram s.pc.toNat ≤ 399) →
      ∀ j, (step s inputs).state.ram j = s.ram j) ∧
    (300 ≤ s.ram s.pc.toNat → s.ram s.pc.toNat ≤ 399 →
      (step s inputs).state.ram (s.ram s.pc.toNat - 300).toNat = s.acc ∧
      (∀ j, j ≠ (s.ram s.pc.toNat - 300).toNat →
        (step s inputs).state.ram j = s.ram j) ∧
      (step s inputs).state.acc = s.acc) := by
  constructor
  · intro hnot j
    rcases decode_cases (s.ram s.pc.toNat) with
      h | h | h | h | h | h | h | h | h | h | h | h
    · rw [step_hlt s inputs h]
    · by_cases hr : inputs.headD 0 < -999 ∨ 999 < inputs.headD 0
      · rw [step_inp_err s inputs h hr]
      · rw [step_inp_ok s inputs h (by omega) (by omega)]
    · rw [step_out s inputs h]
    · rw [step_otc s inputs h]
    · rw [step_add s inputs h.1 h.2]
    · rw [step_sub s inputs h.1 h.2]
    · exact absurd h hnot
    · rw [step_lda s inputs h.1 h.2]
    · rw [step_bra s inputs h.1 h.2]
    · rw [step_brz s inputs h.1 h.2]
    · rw [step_brp s inputs h.1 h.2]
    · rw [step_invalid s inputs h]
  · intro h1 h2
    rw [step_sta s inputs h1 h2]
    refine ⟨Function.update_same _ _ _, fun j hj => Function.update_noteq hj _ _, rfl⟩

/-- Memory image for the C9 witness: `STA 5` at address 0. -/
def c9StaRam : Nat → Int := fun i => if i = 0 then 305 else 0

/-- Witness for C9: a STA step writes acc into the addressed cell and leaves
another cell and the accumulator unchanged, and a non-STA step (HLT here)
leaves memory unchanged. -/
theorem c9_sta_only_memory_mutation_witness :
    (step ⟨0, 0, 0, 0, 7, c9StaRam⟩ []).state.ram 5 = 7 ∧
    (step ⟨0, 0, 0, 0, 7, c9StaRam⟩ []).state.ram 3 = c9StaRam 3 ∧
    (step ⟨0, 0, 0, 0, 7, c9StaRam⟩ []).state.acc = 7 ∧
    (step ⟨1, 0, 0, 0, 7, c9StaRam⟩ []).state.ram 0 = c9StaRam 0 := by
  have h := (c9_sta_only_memory_mutation ⟨0, 0, 0, 0, 7, c9StaRam⟩ []).2
    (by decide) (by decide)
  have h2 := (c9_sta_only_memory_mutation ⟨1, 0, 0, 0, 7, c9StaRam⟩ []).1
    (by decide) 0
  refine ⟨?_, ?_, ?_, h2⟩
  · have := h.1
    simpa [c9StaRam] using this
  · exact h.2.1 3 (by decide)
  · exact h.2.2

/-- C4: every step fetches through mar ← pc, pc ← pc + 1,
mdr ← memory[mar], cir ← mdr before decoding (so mdr and cir hold
memory[old pc], and a non-branching instruction such as OUT leaves
pc = old pc + 1 and mar = old pc); BRA (600-699) sets mar ← cir−600 and
pc ← mar unconditionally, BRZ (700-799) sets pc ← mar only when acc = 0,
and BRP (800-899) sets pc ← mar only when acc > 0, not when acc is zero. -/
theorem c4_fetch_order_and_branches (s : ExecutionState) (inputs : List Int) :
    (step s inputs).state.mdr = s.ram s.pc.toNat ∧
    (step s inputs).state.cir = s.ram s.pc.toNat ∧
    (s.ram s.pc.toNat = 0 →
      (step s inputs).state.mar = s.pc ∧ (step s inputs).state.pc = -1) ∧
    (s.ram s.pc.toNat = 902 →
      (step s inputs).state.mar = s.pc ∧ (step s inputs).state.pc = s.pc + 1) ∧
    (600 ≤ s.ram s.pc.toNat → s.ram s.pc.toNat ≤ 699 →
      (step s inputs).state.mar = s.ram s.pc.toNat - 600 ∧
      (step s inputs).state.pc = s.ram s.pc.toNat - 600) ∧
    (700 ≤ s.ram s.pc.toNat → s.ram s.pc.toNat ≤ 799 →
      (step s inputs).state.mar = s.ram s.pc.toNat - 700 ∧
      (step s inputs).state.pc =
        (if s.acc = 0 then s.ram s.pc.toNat - 700 else s.pc + 1)) ∧
    (800 ≤ s.ram s.pc.toNat → s.ram s.pc.toNat ≤ 899 →
      (step s inputs).state.mar = s.ram s.pc.toNat - 800 ∧
      (step s inputs).state.pc =
        (if 0 < s.acc then s.ram s.pc.toNat - 800 else s.pc + 1)) := by
  have hfetch : (step s inputs).state.mdr = s.ram s.pc.toNat ∧
      (step s inputs).state.cir = s.ram s.pc.toNat := by
    rcases decode_cases (s.ram s.pc.toNat) with
      h | h | h | h | h | h | h | h | h | h | h | h
    · rw [step_hlt s inputs h]
      exact ⟨h.symm, h.symm⟩
    · by_cases hr : inputs.headD 0 < -999 ∨ 999 < inputs.headD 0
      · rw [step_inp_err s inputs h hr]
        exact ⟨h.symm, h.symm⟩
      · rw [step_inp_ok s inputs h (by omega) (by omega)]
        exact ⟨h.symm, h.symm⟩
    · rw [step_out s inputs h]
      exact ⟨h.symm, h.symm⟩
    · rw [step_otc s inputs h]
      exact ⟨h.symm, h.symm⟩
    · rw [step_add s inputs h.1 h.2]
      exact ⟨rfl, rfl⟩
    · rw [step_sub s inputs h.1 h.2]
      exact ⟨rfl, rfl⟩
    · rw [step_sta s inputs h.1 h.2]
      exact ⟨rfl, rfl⟩
    · rw [step_lda s inputs h.1 h.2]
      exact ⟨rfl, rfl⟩
    · rw [step_bra s inputs h.1 h.2]
      exact ⟨rfl, rfl⟩
    · rw [step_brz s inputs h.1 h.2]
      exact ⟨rfl, rfl⟩
    · rw [step_brp s inputs h.1 h.2]
      exact ⟨rfl, rfl⟩
    · rw [step_invalid s inputs h]
      exact ⟨rfl, rfl⟩
  refine ⟨hfetch.1, hfetch.2, ?_, ?_, ?_, ?_, ?_⟩
  · intro h
    rw [step_hlt s inputs h]
    exact ⟨rfl, rfl⟩
  · intro h
    rw [step_out s inputs h]
    exact ⟨rfl, rfl⟩
  · intro h1 h2
    rw [step_bra s inputs h1 h2]
    exact ⟨rfl, rfl⟩
  · intro h1 h2
    rw [step_brz s inputs h1 h2]
    exact ⟨rfl, rfl⟩
  · intro h1 h2
    rw [step_brp s inputs h1 h2]
    exact ⟨rfl, rfl⟩

/-- Memory image for the C4 witness: `BRZ 5` at address 0, `BRP 7` at
address 1. -/
def c4Ram : Nat → Int := fun i => if i = 0 then 705 else if i = 1 then 807 else 0

/-- Witness for C4: with acc = 0, a BRZ word 705 branches to 5 (and mdr and
cir hold the fetched word), while a BRP word 807 does not branch and leaves
pc = old pc + 1. -/
theorem c4_fetch_order_and_branches_witness :
    (step ⟨0, 0, 0, 0, 0, c4Ram⟩ []).state.cir = 705 ∧
    (step ⟨0, 0, 0, 0, 0, c4Ram⟩ []).state.pc = 5 ∧
    (step ⟨1, 0, 0, 0, 0, c4Ram⟩ []).state.pc = 2 := by
  have hz := c4_fetch_order_and_branches ⟨0, 0, 0, 0, 0, c4Ram⟩ []
  have hp := c4_fetch_order_and_branches ⟨1, 0, 0, 0, 0, c4Ram⟩ []
  refine ⟨?_, ?_, ?_⟩
  · have h := hz.2.1
    simpa [c4Ram] using h
  · have h := (hz.2.2.2.2.2.1 (by decide) (by decide)).2
    simpa [c4Ram] using h
  · have h := (hp.2.2.2.2.2.2 (by decide) (by decide)).2
    simpa [c4Ram] using h

/-- C6: a step fails in exactly two cases: an INP instruction (901) whose
input lies outside [-999, 999] fails with "Number out of range" without
updating acc, and an undecodable instruction word fails with an error naming
the word; both emit no output, and either failure makes the run loop return
the failure immediately with no further output. -/
theorem c6_fatal_step_errors (s : ExecutionState) (inputs : List Int) :
    (s.ram s.pc.toNat = 901 →
      (inputs.headD 0 < -999 ∨ 999 < inputs.headD 0) →
      (step s inputs).error = some "Number out of range" ∧
      (step s inputs).state.acc = s.acc ∧ (step s inputs).outputs = []) ∧
    (¬Decodable (s.ram s.pc.toNat) →
      (step s inputs).error =
        some ("Invalid instruction: " ++ toString (s.ram s.pc.toNat)) ∧
      (step s inputs).outputs = []) ∧
    ((step s inputs).error ≠ none →
      (s.ram s.pc.toNat = 901 ∧
        (inputs.headD 0 < -999 ∨ 999 < inputs.headD 0)) ∨
      ¬Decodable (s.ram s.pc.toNat)) ∧
    (∀ fuel outs n msg, (step s inputs).error = some msg →
      runLoop (fuel + 1) s inputs outs n = .failed msg outs) := by
  refine ⟨?_, ?_, ?_, ?_⟩
  · intro h hr
    rw [step_inp_err s inputs h hr]
    exact ⟨rfl, rfl, rfl⟩
  · intro h
    rw [step_invalid s inputs h]
    exact ⟨rfl, rfl⟩
  · intro herr
    rcases decode_cases (s.ram s.pc.toNat) with
      h | h | h | h | h | h | h | h | h | h | h | h
    · rw [step_hlt s inputs h] at herr
      exact absurd rfl herr
    · by_cases hr : inputs.headD 0 < -999 ∨ 999 < inputs.headD 0
      · exact Or.inl ⟨h, hr⟩
      · rw [step_inp_ok s inputs h (by omega) (by omega)] at herr
        exact absurd rfl herr
    · rw [step_out s inputs h] at herr
      exact absurd rfl herr
    · rw [step_otc s inputs h] at herr
      exact absurd rfl herr
    · rw [step_add s inputs h.1 h.2] at herr
      exact absurd rfl herr
    · rw [step_sub s inputs h.1 h.2] at herr
      exact absurd rfl herr
    · rw [step_sta s inputs h.1 h.2] at herr
      exact absurd rfl herr
    · rw [step_lda s inputs h.1 h.2] at herr
      exact absurd rfl herr
    · rw [step_bra s inputs h.1 h.2] at herr
      exact absurd rfl herr
    · rw [step_brz s inputs h.1 h.2] at herr
      exact absurd rfl herr
    · rw [step_brp s inputs h.1 h.2] at herr
      exact absurd rfl herr
    · exact Or.inr h
  · intro fuel outs n msg h
    simp only [runLoop, h]

/-- Memory image for the C6 witness: `INP` at address 0, the undecodable
word 950 at address 1. -/
def c6Ram : Nat → Int := fun i => if i = 0 then 901 else if i = 1 then 950 else 0

/-- Witness for C6: INP with input 1000 fails with "Number out of range"
leaving acc untouched, the word 950 fails with "Invalid instruction: 950",
and the run loop surfaces the INP failure with no output. -/
theorem c6_fatal_step_errors_witness :
    (step ⟨0, 0, 0, 0, 5, c6Ram⟩ [1000]).error = some "Number out of range" ∧
    (step ⟨0, 0, 0, 0, 5, c6Ram⟩ [1000]).state.acc = 5 ∧
    (step ⟨1, 0, 0, 0, 5, c6Ram⟩ []).error = some "Invalid instruction: 950" ∧
    runLoop 8 ⟨0, 0, 0, 0, 5, c6Ram⟩ [1000] [] 0 =
      .failed "Number out of range" [] := by
  have h1 := (c6_fatal_step_errors ⟨0, 0, 0, 0, 5, c6Ram⟩ [1000]).1
    (by decide) (by decide)
  have h2 := (c6_fatal_step_errors ⟨1, 0, 0, 0, 5, c6Ram⟩ []).2.1 (by decide)
  have h3 := (c6_fatal_step_errors ⟨0, 0, 0, 0, 5, c6Ram⟩ [1000]).2.2.2
    7 [] 0 "Number out of range" h1.1
  exact ⟨h1.1, h1.2.1, h2.1, h3⟩

/-- C8: instruction construction from a mnemonic is case-insensitive;
every operand-requiring mnemonic (LDA, STA, ADD, SUB, BRZ, BRP, BRA) with
no operand signals a fatal "missing operand" failure, except DAT, which
with no operand yields DAT with literal operand 0; an unrecognized mnemonic
yields a "no such instruction" result distinct from a malformed one. -/
theorem c8_from_string_contract :
    (∀ s₁ s₂ operand, toUppercase s₁ = toUppercase s₂ →
      Instruction.from_string s₁ operand = Instruction.from_string s₂ operand) ∧
    Instruction.from_string "LDA" none = .missingOperand "LDA requires an operand" ∧
    Instruction.from_string "STA" none = .missingOperand "STA requires an operand" ∧
    Instruction.from_string "ADD" none = .missingOperand "ADD requires an operand" ∧
    Instruction.from_string "SUB" none = .missingOperand "SUB requires an operand" ∧
    Instruction.from_string "BRZ" none = .missingOperand "BRZ requires an operand" ∧
    Instruction.from_string "BRP" none = .missingOperand "BRP requires an operand" ∧
    Instruction.from_string "BRA" none = .missingOperand "BRA requires an operand" ∧
    Instruction.from_string "DAT" none = .ok (.DAT (.Value 0)) ∧
    Instruction.from_string "dat" (some (.Value 3)) = .ok (.DAT (.Value 3)) ∧
    (∀ s operand,
      toUppercase s ∉ (["LDA", "STA", "ADD", "SUB", "INP", "OUT", "OTC", "HLT",
        "BRZ", "BRP", "BRA", "DAT"] : List String) →
      Instruction.from_string s operand = .noSuchInstruction) := by
  refine ⟨?_, by decide, by decide, by decide, by decide, by decide, by decide,
    by decide, by decide, by decide, ?_⟩
  · intro s₁ s₂ operand hcase
    unfold Instruction.from_string
    rw [hcase]
  · intro s operand hmem
    unfold Instruction.from_string
    split <;> first | rfl | (exfalso; apply hmem; simp_all)

/-- Witness for C8: the case-insensitivity conjunct applied at the concrete
mnemonic "lda" against "LDA". -/
theorem c8_from_string_contract_witness :
    Instruction.from_string "lda" (some (.Value 4)) =
      Instruction.from_string "LDA" (some (.Value 4)) ∧
    Instruction.from_string "qqq" none = .noSuchInstruction := by
  constructor
  · exact c8_from_string_contract.1 "lda" "LDA" (some (.Value 4)) (by decide)
  · exact c8_from_string_contract.2.2.2.2.2.2.2.2.2.2 "qqq" none (by decide)

/-- The linear scan finds the first matching label: if position `i` holds
the label and no earlier position does, the scan started at `pos` returns
`pos + i`. -/
theorem findLabel_ok (lbl : String) (rest : List (Label × Instruction)) :
    ∀ (pos : Int) (i : Nat) (hi : i < rest.length),
      (rest.get ⟨i, hi⟩).1 = Label.LBL lbl →
      (∀ j (hj : j < rest.length), j < i → (rest.get ⟨j, hj⟩).1 ≠ Label.LBL lbl) →
      findLabel lbl pos rest = .ok (pos + i) := by
  induction rest with
  | nil =>
    intro pos i hi
    exact absurd hi (by simp)
  | cons p rest ih =>
    intro pos i hi hmatch hfirst
    match i with
    | 0 =>
      simp only [List.get] at hmatch
      obtain ⟨label, instruction⟩ := p
      simp only [findLabel]
      rw [if_pos hmatch]
      norm_num
    | n + 1 =>
      have hhead : p.1 ≠ Label.LBL lbl := by
        have := hfirst 0 (by simp) (by omega)
        simpa using this
      obtain ⟨label, instruction⟩ := p
      simp only [findLabel]
      rw [if_neg hhead]
      have hn : n < rest.length := by
        simpa using Nat.lt_of_succ_lt_succ hi
      have ihres := ih (pos + 1) n hn
        (by simpa using hmatch)
        (by
          intro j hj hjn
          have := hfirst (j + 1) (by simpa using Nat.succ_lt_succ hj)
            (Nat.succ_lt_succ hjn)
          simpa using this)
      rw [ihres]
      congr 1
      push_cast
      ring

/-- The linear scan fails with `invalidLabel` when no pair matches. -/
theorem findLabel_err (lbl : String) (rest : List (Label × Instruction)) :
    ∀ (pos : Int),
      (∀ pair, pair ∈ rest → pair.1 ≠ Label.LBL lbl) →
      findLabel lbl pos rest = .error (.invalidLabel lbl) := by
  induction rest with
  | nil =>
    intro pos _
    rfl
  | cons p rest ih =>
    intro pos hnone
    obtain ⟨label, instruction⟩ := p
    simp only [findLabel]
    rw [if_neg (hnone (label, instruction) (by simp))]
    exact ih (pos + 1) fun pair hmem => hnone pair (by simp [hmem])

/-- C3: for every program of length at most 100, a literal operand resolves
to its own value, and a label operand resolves by linear scan to the ordinal
position of the first pair whose label matches, so with duplicate labels
the first match wins and the resolved address equals the ordinal index. -/
theorem c3_label_resolution (program : Program) (hlen : program.length ≤ 100) :
    (∀ v, Operand.get_value (.Value v) program = .ok v) ∧
    (∀ lbl i (hi : i < program.length),
      (program.get ⟨i, hi⟩).1 = Label.LBL lbl →
      (∀ j (hj : j < program.length), j < i →
        (program.get ⟨j, hj⟩).1 ≠ Label.LBL lbl) →
      Operand.get_value (.Label lbl) program = .ok i) := by
  refine ⟨fun v => rfl, fun lbl i hi hmatch hfirst => ?_⟩
  have h := findLabel_ok lbl program 0 i hi hmatch hfirst
  simpa [Operand.get_value] using h

/-- Program for the C3 witness: two pairs sharing the label "a". -/
def c3DupProgram : Program :=
  [(Label.LBL "a", Instruction.HLT), (Label.LBL "a", Instruction.INP)]

/-- Witness for C3: a literal resolves to itself and the duplicated label
"a" resolves to ordinal position 0, the first match. -/
theorem c3_label_resolution_witness :
    Operand.get_value (.Value 42) c3DupProgram = .ok 42 ∧
    Operand.get_value (.Label "a") c3DupProgram = .ok 0 := by
  constructor
  · exact (c3_label_resolution c3DupProgram (by decide)).1 42
  · exact (c3_label_resolution c3DupProgram (by decide)).2 "a" 0 (by decide)
      (by decide) (fun j hj hj0 => absurd hj0 (by omega))

/-- Reduction of an `Except` bind on a success value. -/
theorem exceptBind_ok {α β ε : Type} (a : α) (f : α → Except ε β) :
    (do let x ← Except.ok a; f x) = f a := rfl

/-- Reduction of an `Except` bind on an error value. -/
theorem exceptBind_err {α β ε : Type} (e : ε) (f : α → Except ε β) :
    (do let x ← (Except.error e : Except ε α); f x) = Except.error e := rfl

/-- A successful `assembleGo` leaves every cell outside the written range
`[i, i + rest.length)` as it was. -/
theorem assembleGo_ok_frame (program : Program) :
    ∀ (rest : List (Label × Instruction)) (i : Nat) (ram mem : Nat → Int),
      assembleGo program i rest ram = .ok mem →
      ∀ j, (j < i ∨ i + rest.length ≤ j) → mem j = ram j := by
  intro rest
  induction rest with
  | nil =>
    intro i ram mem hok j _
    simp only [assembleGo] at hok
    cases hok
    rfl
  | cons p rest ih =>
    intro i ram mem hok j hj
    simp only [List.length_cons] at hj
    obtain ⟨label, instruction⟩ := p
    simp only [assembleGo] at hok
    cases hw : assembleWord instruction program with
    | error e =>
      rw [hw, exceptBind_err] at hok
      exact Except.noConfusion hok
    | ok w =>
      rw [hw, exceptBind_ok] at hok
      by_cases hi100 : i < 100
      · rw [if_pos hi100] at hok
        have hj' : j < i + 1 ∨ i + 1 + rest.length ≤ j := by omega
        have hframe := ih (i + 1) (Function.update ram i w) mem hok j hj'
        rw [hframe]
        exact Function.update_noteq (by omega) _ _
      · rw [if_neg hi100] at hok
        exact Except.noConfusion hok

/-- A successful `assembleGo` writes, at index `i + k`, the word assembled
from the instruction at offset `k`. -/
theorem assembleGo_ok_words (program : Program) :
    ∀ (rest : List (Label × Instruction)) (i : Nat) (ram mem : Nat → Int),
      assembleGo program i rest ram = .ok mem →
      ∀ k (hk : k < rest.length),
        ∃ w, assembleWord (rest.get ⟨k, hk⟩).2 program = .ok w ∧ mem (i + k) = w := by
  intro rest
  induction rest with
  | nil =>
    intro i ram mem hok k hk
    exact absurd hk (by simp)
  | cons p rest ih =>
    intro i ram mem hok k hk
    obtain ⟨label, instruction⟩ := p
    simp only [assembleGo] at hok
    cases hw : assembleWord instruction program with
    | error e =>
      rw [hw, exceptBind_err] at hok
      exact Except.noConfusion hok
    | ok w =>
      rw [hw, exceptBind_ok] at hok
      by_cases hi100 : i < 100
      · rw [if_pos hi100] at hok
        match k with
        | 0 =>
          refine ⟨w, hw, ?_⟩
          have hframe := assembleGo_ok_frame program rest (i + 1)
            (Function.update ram i w) mem hok i (Or.inl (by omega))
          simpa using hframe
        | n + 1 =>
          have hn : n < rest.length := by simpa using Nat.lt_of_succ_lt_succ hk
          obtain ⟨w2, hw2, hmem2⟩ := ih (i + 1) (Function.update ram i w) mem hok n hn
          refine ⟨w2, by simpa using hw2, ?_⟩
          rw [show i + (n + 1) = i + 1 + n by omega]
          exact hmem2
      · rw [if_neg hi100] at hok
        exact Except.noConfusion hok

/-- Lemma: `assembleGo` succeeds when the range fits in memory and every word
assembles. -/
theorem assembleGo_ok_of_words (program : Program) :
    ∀ (rest : List (Label × Instruction)) (i : Nat) (ram : Nat → Int),
      i + rest.length ≤ 100 →
      (∀ k (hk : k < rest.length),
        ∃ w, assembleWord (rest.get ⟨k, hk⟩).2 program = .ok w) →
      ∃ mem, assembleGo program i rest ram = .ok mem := by
  intro rest
  induction rest with
  | nil =>
    intro i ram _ _
    exact ⟨ram, rfl⟩
  | cons p rest ih =>
    intro i ram hlen hwords
    obtain ⟨label, instruction⟩ := p
    obtain ⟨w, hw⟩ := hwords 0 (by simp)
    simp only [List.get] at hw
    have hi100 : i < 100 := by
      simp only [List.length_cons] at hlen
      omega
    obtain ⟨mem, hmem⟩ := ih (i + 1) (Function.update ram i w)
      (by simp only [List.length_cons] at hlen; omega)
      (fun k hk => by
        have := hwords (k + 1) (by simpa using Nat.succ_lt_succ hk)
        simpa using this)
    refine ⟨mem, ?_⟩
    simp only [assembleGo]
    rw [hw, exceptBind_ok, if_pos hi100]
    exact hmem

/-- Lemma: `assembleGo` propagates the error of the first failing word. -/
theorem assembleGo_err_first (program : Program) :
    ∀ (rest : List (Label × Instruction)) (i : Nat) (ram : Nat → Int)
      (k : Nat) (hk : k < rest.length) (e : AsmError),
      i + k ≤ 100 →
      (∀ j (hj : j < rest.length), j < k →
        ∃ w, assembleWord (rest.get ⟨j, hj⟩).2 program = .ok w) →
      assembleWord (rest.get ⟨k, hk⟩).2 program = .error e →
      assembleGo program i rest ram = .error e := by
  intro rest
  induction rest with
  | nil =>
    intro i ram k hk
    exact absurd hk (by simp)
  | cons p rest ih =>
    intro i ram k hk e hik hprev herr
    obtain ⟨label, instruction⟩ := p
    match k with
    | 0 =>
      simp only [List.get] at herr
      simp only [assembleGo]
      rw [herr, exceptBind_err]
    | n + 1 =>
      obtain ⟨w, hw⟩ := hprev 0 (by simp) (by omega)
      simp only [List.get] at hw
      have hi100 : i < 100 := by omega
      simp only [assembleGo]
      rw [hw, exceptBind_ok, if_pos hi100]
      have hn : n < rest.length := by simpa using Nat.lt_of_succ_lt_succ hk
      refine ih (i + 1) (Function.update ram i w) n hn e (by omega) ?_
        (by simpa using herr)
      intro j hj hjn
      have := hprev (j + 1) (by simpa using Nat.succ_lt_succ hj) (by omega)
      simpa using this

/-- The only error `findLabel` produces is `invalidLabel` for the searched
name. -/
theorem findLabel_error_shape (lbl : String) :
    ∀ (rest : List (Label × Instruction)) (pos : Int) (e : AsmError),
      findLabel lbl pos rest = .error e → e = .invalidLabel lbl := by
  intro rest
  induction rest with
  | nil =>
    intro pos e h
    simp only [findLabel] at h
    cases h
    rfl
  | cons p rest ih =>
    intro pos e h
    obtain ⟨label, instruction⟩ := p
    simp only [findLabel] at h
    by_cases hl : label = Label.LBL lbl
    · rw [if_pos hl] at h
      exact Except.noConfusion h
    · rw [if_neg hl] at h
      exact ih (pos + 1) e h

/-- The only error `assembleWord` produces is `invalidLabel` for some label
name. -/
theorem assembleWord_error_shape (program : Program) (instruction : Instruction)
    (e : AsmError) (herr : assembleWord instruction program = .error e) :
    ∃ lbl, e = .invalidLabel lbl := by
  have hval : ∀ (op : Operand), Operand.get_value op program = .error e →
      ∃ lbl, e = .invalidLabel lbl := by
    intro op hv
    match op with
    | .Value v => exact Except.noConfusion hv
    | .Label lbl =>
      exact ⟨lbl, findLabel_error_shape lbl program 0 e hv⟩
  cases instruction <;> simp only [assembleWord] at herr <;>
    first
    | exact Except.noConfusion herr
    | exact hval _ herr
    | (rename_i operand
       cases hv : Operand.get_value operand program with
       | error e2 =>
         rw [hv, exceptBind_err] at herr
         cases herr
         exact hval operand hv
       | ok a =>
         rw [hv, exceptBind_ok] at herr
         exact Except.noConfusion herr)

/-- C2: on every program on which assemble succeeds, the image holds, at each
ordinal position, base encoding + resolved operand for BRZ/BRP/BRA and
LDA/STA/ADD/SUB, the resolved operand verbatim for DAT, the base encoding
alone for INP/OUT/OTC/HLT, and 0 at every index not covered. -/
theorem c2_assemble_encoding (program : Program) (mem : Nat → Int)
    (hok : assemble program = .ok mem) :
    (∀ i (hi : i < program.length),
      (∀ operand,
        ((program.get ⟨i, hi⟩).2 = .BRZ operand ∨
         (program.get ⟨i, hi⟩).2 = .BRP operand ∨
         (program.get ⟨i, hi⟩).2 = .BRA operand ∨
         (program.get ⟨i, hi⟩).2 = .LDA operand ∨
         (program.get ⟨i, hi⟩).2 = .STA operand ∨
         (program.get ⟨i, hi⟩).2 = .ADD operand ∨
         (program.get ⟨i, hi⟩).2 = .SUB operand) →
        ∃ a, Operand.get_value operand program = .ok a ∧
          mem i = Instruction.get_base (program.get ⟨i, hi⟩).2 + a) ∧
      (∀ operand, (program.get ⟨i, hi⟩).2 = .DAT operand →
        ∃ a, Operand.get_value operand program = .ok a ∧ mem i = a) ∧
      (((program.get ⟨i, hi⟩).2 = .INP ∨ (program.get ⟨i, hi⟩).2 = .OUT ∨
        (program.get ⟨i, hi⟩).2 = .OTC ∨ (program.get ⟨i, hi⟩).2 = .HLT) →
        mem i = Instruction.get_base (program.get ⟨i, hi⟩).2)) ∧
    (∀ i, program.length ≤ i → mem i = 0) := by
  have hwords := assembleGo_ok_words program program 0 (fun _ => 0) mem hok
  have hframe := assembleGo_ok_frame program program 0 (fun _ => 0) mem hok
  constructor
  · intro i hi
    obtain ⟨w, hw, hmem⟩ := hwords i hi
    simp only [Nat.zero_add] at hmem
    refine ⟨?_, ?_, ?_⟩
    · intro operand hshape
      rcases hshape with h | h | h | h | h | h | h <;>
        (rw [h] at hw ⊢
         simp only [assembleWord] at hw
         cases hv : Operand.get_value operand program with
         | error e =>
           rw [hv, exceptBind_err] at hw
           exact Except.noConfusion hw
         | ok a =>
           rw [hv, exceptBind_ok] at hw
           cases hw
           exact ⟨a, rfl, hmem⟩)
    · intro operand h
      rw [h] at hw
      simp only [assembleWord] at hw
      exact ⟨w, hw, hmem⟩
    · intro hshape
      rcases hshape with h | h | h | h <;>
        (rw [h] at hw ⊢
         simp only [assembleWord] at hw
         cases hw
         exact hmem)
  · intro i hil
    exact hframe i (Or.inr (by omega))

/-- C7: a label operand matching no label resolves to an "invalid label"
error naming the offending label; the first failing operand resolution
aborts assembly with that error (so no image is returned); and when every
operand resolves, assemble succeeds. -/
theorem c7_unresolved_label (program : Program) (hlen : program.length ≤ 100) :
    (∀ lbl, (∀ pair, pair ∈ program → pair.1 ≠ Label.LBL lbl) →
      Operand.get_value (.Label lbl) program = .error (.invalidLabel lbl)) ∧
    (∀ k (hk : k < program.length) (e : AsmError),
      (∀ j (hj : j < program.length), j < k →
        ∃ w, assembleWord (program.get ⟨j, hj⟩).2 program = .ok w) →
      assembleWord (program.get ⟨k, hk⟩).2 program = .error e →
      assemble program = .error e ∧ ∃ lbl, e = .invalidLabel lbl) ∧
    ((∀ k (hk : k < program.length),
        ∃ w, assembleWord (program.get ⟨k, hk⟩).2 program = .ok w) →
      ∃ mem, assemble program = .ok mem) := by
  refine ⟨?_, ?_, ?_⟩
  · intro lbl hnone
    simpa [Operand.get_value] using findLabel_err lbl program 0 hnone
  · intro k hk e hprev herr
    refine ⟨?_, assembleWord_error_shape program _ e herr⟩
    exact assembleGo_err_first program program 0 (fun _ => 0) k hk e (by omega)
      hprev herr
  · intro hwords
    exact assembleGo_ok_of_words program program 0 (fun _ => 0) (by omega) hwords

/-- Program for the C7 witness: a single LDA whose label "zz" is undefined. -/
def c7BadProgram : Program := [(Label.None, Instruction.LDA (.Label "zz"))]

/-- Witness for C7: assembling the undefined-label program fails with
`invalidLabel "zz"`, and a fully resolvable program assembles. -/
theorem c7_unresolved_label_witness :
    assemble c7BadProgram = .error (.invalidLabel "zz") ∧
    (∃ mem, assemble [(Label.None, Instruction.HLT)] = .ok mem) := by
  constructor
  · have h := (c7_unresolved_label c7BadProgram (by decide)).2.1 0 (by decide)
      (.invalidLabel "zz") (fun j hj hj0 => absurd hj0 (by omega)) (by rfl)
    exact h.1
  · exact (c7_unresolved_label [(Label.None, Instruction.HLT)] (by decide)).2.2
      (fun k hk => match k, hk with
        | 0, _ => ⟨0, rfl⟩
        | n + 1, hk => absurd hk (by simp))

/-- Program for the C2 witness: a labelled DAT, an LDA through the label, a
BRA with a literal operand and a HLT. -/
def c2Program : Program :=
  [(Label.LBL "x", Instruction.DAT (.Value 7)),
   (Label.None, Instruction.LDA (.Label "x")),
   (Label.None, Instruction.BRA (.Value 9)),
   (Label.None, Instruction.HLT)]

/-- Witness for C2: the four-instruction program assembles to
7, 500, 609, 0 with zero fill elsewhere. -/
theorem c2_assemble_encoding_witness :
    ∃ mem, assemble c2Program = .ok mem ∧
      mem 0 = 7 ∧ mem 1 = 500 ∧ mem 2 = 609 ∧ mem 3 = 0 ∧ mem 7 = 0 := by
  obtain ⟨mem, hasm⟩ := assembleGo_ok_of_words c2Program c2Program 0 (fun _ => 0)
    (by decide)
    (fun k hk => match k, hk with
      | 0, _ => ⟨7, rfl⟩
      | 1, _ => ⟨500, rfl⟩
      | 2, _ => ⟨609, rfl⟩
      | 3, _ => ⟨0, rfl⟩
      | n + 4, hk => absurd hk (by simp [c2Program]))
  have h := c2_assemble_encoding c2Program mem hasm
  refine ⟨mem, hasm, ?_, ?_, ?_, ?_, ?_⟩
  · obtain ⟨a, ha, hm⟩ := (h.1 0 (by decide)).2.1 (.Value 7) rfl
    have ha7 : Except.ok (ε := AsmError) (7 : Int) = .ok a := ha
    cases ha7
    exact hm
  · obtain ⟨a, ha, hm⟩ := (h.1 1 (by decide)).1 (.Label "x")
      (Or.inr (Or.inr (Or.inr (Or.inl rfl))))
    have ha0 : Except.ok (ε := AsmError) (0 : Int) = .ok a := ha
    cases ha0
    simpa using hm
  · obtain ⟨a, ha, hm⟩ := (h.1 2 (by decide)).1 (.Value 9)
      (Or.inr (Or.inr (Or.inl rfl)))
    have ha9 : Except.ok (ε := AsmError) (9 : Int) = .ok a := ha
    cases ha9
    simpa using hm
  · have hm := (h.1 3 (by decide)).2.2 (Or.inr (Or.inr (Or.inr rfl)))
    simpa using hm
  · exact h.2 7 (by decide)

/-- After any step, pc is either the old pc + 1, the HLT sentinel -1, or a
branch target within [0, 99]. -/
theorem step_pc_classes (s : ExecutionState) (inputs : List Int) :
    (step s inputs).state.pc = s.pc + 1 ∨ (step s inputs).state.pc = -1 ∨
      (0 ≤ (step s inputs).state.pc ∧ (step s inputs).state.pc ≤ 99) := by
  rcases decode_cases (s.ram s.pc.toNat) with
    h | h | h | h | h | h | h | h | h | h | h | h
  · rw [step_hlt s inputs h]
    exact Or.inr (Or.inl rfl)
  · by_cases hr : inputs.headD 0 < -999 ∨ 999 < inputs.headD 0
    · rw [step_inp_err s inputs h hr]
      exact Or.inl rfl
    · rw [step_inp_ok s inputs h (by omega) (by omega)]
      exact Or.inl rfl
  · rw [step_out s inputs h]
    exact Or.inl rfl
  · rw [step_otc s inputs h]
    exact Or.inl rfl
  · rw [step_add s inputs h.1 h.2]
    exact Or.inl rfl
  · rw [step_sub s inputs h.1 h.2]
    exact Or.inl rfl
  · rw [step_sta s inputs h.1 h.2]
    exact Or.inl rfl
  · rw [step_lda s inputs h.1 h.2]
    exact Or.inl rfl
  · rw [step_bra s inputs h.1 h.2]
    refine Or.inr (Or.inr ?_)
    dsimp only
    omega
  · rw [step_brz s inputs h.1 h.2]
    by_cases hacc : s.acc = 0
    · refine Or.inr (Or.inr ?_)
      dsimp only
      rw [if_pos hacc]
      omega
    · refine Or.inl ?_
      dsimp only
      rw [if_neg hacc]
  · rw [step_brp s inputs h.1 h.2]
    by_cases hacc : 0 < s.acc
    · refine Or.inr (Or.inr ?_)
      dsimp only
      rw [if_pos hacc]
      omega
    · refine Or.inl ?_
      dsimp only
      rw [if_neg hacc]
  · rw [step_invalid s inputs h]
    exact Or.inl rfl

/-- Starting from a non-negative pc, a step leaves pc = -1 exactly when the
fetched word is 0 (HLT). -/
theorem step_pc_terminal_iff (s : ExecutionState) (inputs : List Int)
    (h0 : 0 ≤ s.pc) :
    ((step s inputs).state.pc = -1 ↔ s.ram s.pc.toNat = 0) := by
  rcases decode_cases (s.ram s.pc.toNat) with
    h | h | h | h | h | h | h | h | h | h | h | h
  · rw [step_hlt s inputs h]
    simpa using h
  · by_cases hr : inputs.headD 0 < -999 ∨ 999 < inputs.headD 0
    · rw [step_inp_err s inputs h hr]
      constructor
      · intro hc
        dsimp only at hc
        omega
      · intro hc
        rw [hc] at h
        omega
    · rw [step_inp_ok s inputs h (by omega) (by omega)]
      constructor
      · intro hc
        dsimp only at hc
        omega
      · intro hc
        rw [hc] at h
        omega
  · rw [step_out s inputs h]
    constructor
    · intro hc
      dsimp only at hc
      omega
    · intro hc
      rw [hc] at h
      omega
  · rw [step_otc s inputs h]
    constructor
    · intro hc
      dsimp only at hc
      omega
    · intro hc
      rw [hc] at h
      omega
  · rw [step_add s inputs h.1 h.2]
    constructor
    · intro hc
      dsimp only at hc
      omega
    · intro hc
      omega
  · rw [step_sub s inputs h.1 h.2]
    constructor
    · intro hc
      dsimp only at hc
      omega
    · intro hc
      omega
  · rw [step_sta s inputs h.1 h.2]
    constructor
    · intro hc
      dsimp only at hc
      omega
    · intro hc
      omega
  · rw [step_lda s inputs h.1 h.2]
    constructor
    · intro hc
      dsimp only at hc
      omega
    · intro hc
      omega
  · rw [step_bra s inputs h.1 h.2]
    constructor
    · intro hc
      dsimp only at hc
      omega
    · intro hc
      omega
  · rw [step_brz s inputs h.1 h.2]
    constructor
    · intro hc
      dsimp only at hc
      split at hc <;> omega
    · intro hc
      omega
  · rw [step_brp s inputs h.1 h.2]
    constructor
    · intro hc
      dsimp only at hc
      split at hc <;> omega
    · intro hc
      omega
  · rw [step_invalid s inputs h]
    constructor
    · intro hc
      dsimp only at hc
      omega
    · intro hc
      exfalso
      apply h
      rw [hc]
      simp [Decodable]

/-- A normally halted run loop stopped because pc = -1 (HLT sentinel) or
pc > 99 (fell off the end of memory): there is no other normal stop. -/
theorem runLoop_halted_conditions :
    ∀ (fuel : Nat) (s : ExecutionState) (inputs : List Int) (outs : List Output)
      (n : Nat) (s2 : ExecutionState) (outs2 : List Output) (n2 : Nat),
      runLoop fuel s inputs outs n = .halted s2 outs2 n2 →
      s2.pc = -1 ∨ 99 < s2.pc := by
  intro fuel
  induction fuel with
  | zero =>
    intro s inputs outs n s2 outs2 n2 h
    exact RunResult.noConfusion h
  | succ fuel ih =>
    intro s inputs outs n s2 outs2 n2 h
    simp only [runLoop] at h
    cases herr : (step s inputs).error with
    | some msg =>
      rw [herr] at h
      exact RunResult.noConfusion h
    | none =>
      rw [herr] at h
      by_cases h1 : (step s inputs).state.pc = -1
      · rw [if_pos h1] at h
        cases h
        exact Or.inl h1
      · rw [if_neg h1] at h
        by_cases h2 : 99 < (step s inputs).state.pc
        · rw [if_pos h2] at h
          cases h
          exact Or.inr h2
        · rw [if_neg h2] at h
          exact ih _ _ _ _ _ _ _ h

/-- Instruction words executable in a straight line: they never fail, never
branch, never touch an out-of-range address and never write memory. -/
def StraightWord (w : Int) : Prop :=
  (100 ≤ w ∧ w ≤ 299) ∨ (500 ≤ w ∧ w ≤ 599) ∨ w = 902 ∨ w = 922

/-- A step on a straight-line word succeeds, advances pc by one, leaves
memory untouched and consumes no input. -/
theorem step_straight (s : ExecutionState) (inputs : List Int)
    (h : StraightWord (s.ram s.pc.toNat)) :
    (step s inputs).error = none ∧ (step s inputs).state.pc = s.pc + 1 ∧
      (step s inputs).state.ram = s.ram ∧ (step s inputs).inputs = inputs := by
  rcases h with h | h | h | h
  · by_cases hadd : s.ram s.pc.toNat ≤ 199
    · rw [step_add s inputs h.1 hadd]
      exact ⟨rfl, rfl, rfl, rfl⟩
    · rw [step_sub s inputs (by omega) h.2]
      exact ⟨rfl, rfl, rfl, rfl⟩
  · rw [step_lda s inputs h.1 h.2]
    exact ⟨rfl, rfl, rfl, rfl⟩
  · rw [step_out s inputs h]
    exact ⟨rfl, rfl, rfl, rfl⟩
  · rw [step_otc s inputs h]
    exact ⟨rfl, rfl, rfl, rfl⟩

/-- Single unfolding of the run loop on a successful step. -/
theorem runLoop_succ_ok (fuel : Nat) (s : ExecutionState) (inputs : List Int)
    (outs : List Output) (n : Nat) (herr : (step s inputs).error = none) :
    runLoop (fuel + 1) s inputs outs n =
      if (step s inputs).state.pc = -1 then
        .halted (step s inputs).state (outs ++ (step s inputs).outputs) (n + 1)
      else if 99 < (step s inputs).state.pc then
        .halted (step s inputs).state (outs ++ (step s inputs).outputs) (n + 1)
      else
        runLoop fuel (step s inputs).state (step s inputs).inputs
          (outs ++ (step s inputs).outputs) (n + 1) := by
  simp only [runLoop, herr]

/-- A machine whose first 100 cells are straight-line words runs from
pc = 100 - k to the end of memory in exactly k further steps. -/
theorem straight_run :
    ∀ (k : Nat) (s : ExecutionState) (inputs : List Int) (outs : List Output)
      (n : Nat),
      (∀ i : Nat, i ≤ 99 → StraightWord (s.ram i)) →
      s.pc = 100 - (k : Int) → 1 ≤ k → k ≤ 100 →
      ∃ s2 outs2, runLoop k s inputs outs n = .halted s2 outs2 (n + k) ∧
        s2.pc = 100 := by
  intro k
  induction k with
  | zero =>
    intro s inputs outs n _ _ h1
    exact absurd h1 (by omega)
  | succ k ih =>
    intro s inputs outs n hwords hpc _ hk
    have hpcr : 0 ≤ s.pc ∧ s.pc ≤ 99 := by omega
    have hw : StraightWord (s.ram s.pc.toNat) := hwords s.pc.toNat (by omega)
    obtain ⟨herr, hpc1, hram, hinp⟩ := step_straight s inputs hw
    match k with
    | 0 =>
      refine ⟨(step s inputs).state, outs ++ (step s inputs).outputs, ?_, ?_⟩
      · rw [runLoop_succ_ok 0 s inputs outs n herr]
        rw [iteNo (by omega), iteYes (by omega)]
      · omega
    | k' + 1 =>
      obtain ⟨s2, outs2, hrun, hpc2⟩ := ih (step s inputs).state
        (step s inputs).inputs (outs ++ (step s inputs).outputs) (n + 1)
        (by
          intro i hi
          rw [hram]
          exact hwords i hi)
        (by push_cast; omega) (by omega) (by omega)
      refine ⟨s2, outs2, ?_, hpc2⟩
      rw [runLoop_succ_ok (k' + 1) s inputs outs n herr]
      rw [iteNo (by omega), iteNo (by omega)]
      rw [hrun]
      congr 1
      omega

/-- One continuing iteration of the run loop, as a relation on
(state, pending inputs): the step succeeded and neither halt condition
(pc = -1 or pc > 99) fired, so the loop fetches again from the new state. -/
def runLoopStep (a b : ExecutionState × List Int) : Prop :=
  (step a.1 a.2).error = none ∧
  b.1 = (step a.1 a.2).state ∧ b.2 = (step a.1 a.2).inputs ∧
  (step a.1 a.2).state.pc ≠ -1 ∧ (step a.1 a.2).state.pc ≤ 99

/-- C10: starting from pc = 0, at entry to every step of the run loop pc
lies in [0, 99], so the fetch index is valid, and for every decoded
memory-accessing instruction (ADD, SUB, STA, LDA) the derived address
mar = cir - base lies in [0, 99], so the unchecked indexing in step stays
in range within run. -/
theorem c10_memory_accesses_in_bounds (program : Nat → Int) (inputs : List Int)
    (s : ExecutionState) (ins : List Int)
    (hreach : Relation.ReflTransGen runLoopStep
      (⟨0, 0, 0, 0, 0, program⟩, inputs) (s, ins)) :
    0 ≤ s.pc ∧ s.pc ≤ 99 ∧ s.pc.toNat ≤ 99 ∧
    (((100 ≤ s.ram s.pc.toNat ∧ s.ram s.pc.toNat ≤ 399) ∨
      (500 ≤ s.ram s.pc.toNat ∧ s.ram s.pc.toNat ≤ 599)) →
      0 ≤ (step s ins).state.mar ∧ (step s ins).state.mar ≤ 99 ∧
        (step s ins).state.mar.toNat ≤ 99) := by
  have hinv : ∀ (b : ExecutionState × List Int),
      Relation.ReflTransGen runLoopStep (⟨0, 0, 0, 0, 0, program⟩, inputs) b →
      0 ≤ b.1.pc ∧ b.1.pc ≤ 99 := by
    intro b hb
    induction hb with
    | refl => exact ⟨le_refl 0, by norm_num⟩
    | tail hsteps hstep ih =>
      rename_i mid c
      obtain ⟨herr, hc1, _, hne, hle⟩ := hstep
      rw [hc1]
      refine ⟨?_, hle⟩
      rcases step_pc_classes mid.1 mid.2 with h | h | h
      · rw [h]
        omega
      · exact absurd h hne
      · exact h.1
  obtain ⟨h0, h99⟩ := hinv (s, ins) hreach
  have h0s : 0 ≤ s.pc := h0
  have h99s : s.pc ≤ 99 := h99
  refine ⟨h0s, h99s, by omega, ?_⟩
  intro hclass
  rcases hclass with h | h
  · by_cases hadd : s.ram s.pc.toNat ≤ 199
    · rw [step_add s ins h.1 hadd]
      dsimp only
      omega
    · by_cases hsub : s.ram s.pc.toNat ≤ 299
      · rw [step_sub s ins (by omega) hsub]
        dsimp only
        omega
      · rw [step_sta s ins (by omega) h.2]
        dsimp only
        omega
  · rw [step_lda s ins h.1 h.2]
    dsimp only
    omega

/-- Memory image for the C10 witness: an ADD word at address 0. -/
def c10Ram : Nat → Int := fun i => if i = 0 then 150 else 0

/-- Witness for C10: at the initial loop entry of a run of `c10Ram`, the
decoded ADD address is in bounds. -/
theorem c10_memory_accesses_in_bounds_witness :
    0 ≤ (step ⟨0, 0, 0, 0, 0, c10Ram⟩ []).state.mar ∧
    (step ⟨0, 0, 0, 0, 0, c10Ram⟩ []).state.mar ≤ 99 := by
  have h := c10_memory_accesses_in_bounds c10Ram [] ⟨0, 0, 0, 0, 0, c10Ram⟩ []
    Relation.ReflTransGen.refl
  have hm := h.2.2.2 (Or.inl ⟨by decide, by decide⟩)
  exact ⟨hm.1, hm.2.1⟩

/-- Program for the C5 counterexample: 100 instructions, no HLT, and no
backward branch — the branch at position 0 jumps forward to position 99. -/
def c5FwdProgram : Program :=
  (Label.None, Instruction.BRA (.Value 99)) ::
    List.replicate 99 (Label.None, Instruction.LDA (.Value 0))

/-- Shape of the counterexample program at each position. -/
theorem c5FwdProgram_get (k : Nat) (hk : k < c5FwdProgram.length) :
    (c5FwdProgram.get ⟨k, hk⟩).2 =
      if k = 0 then Instruction.BRA (.Value 99) else Instruction.LDA (.Value 0) := by
  match k with
  | 0 => rfl
  | n + 1 =>
    have hn : n < 99 := by
      have := hk
      simp [c5FwdProgram] at this
      omega
    have : c5FwdProgram.get ⟨n + 1, hk⟩ =
        (List.replicate 99 ((Label.None : Label), Instruction.LDA (.Value 0))).get
          ⟨n, by simpa using hn⟩ := rfl
    rw [this, List.get_replicate]
    simp

/-- Counterexample to C5 as stated: this 100-instruction program contains
no HLT and no backward branch (its only branch jumps forward from position
0 to position 99), yet its run halts after exactly 2 steps, not 100. -/
theorem c5_counterexample_forward_branch :
    c5FwdProgram.length = 100 ∧
    (∀ pair, pair ∈ c5FwdProgram → pair.2 ≠ Instruction.HLT) ∧
    (∀ k (hk : k < c5FwdProgram.length) operand,
      ((c5FwdProgram.get ⟨k, hk⟩).2 = Instruction.BRA operand ∨
       (c5FwdProgram.get ⟨k, hk⟩).2 = Instruction.BRZ operand ∨
       (c5FwdProgram.get ⟨k, hk⟩).2 = Instruction.BRP operand) →
      k = 0 ∧ operand = .Value 99) ∧
    ∃ mem, assemble c5FwdProgram = .ok mem ∧
      RunResult.stepsOf (run mem [] 200) = some 2 := by
  have hlen : c5FwdProgram.length = 100 := by simp [c5FwdProgram]
  refine ⟨hlen, ?_, ?_, ?_⟩
  · intro pair hmem
    rcases List.mem_cons.mp hmem with h | h
    · rw [h]
      simp
    · rw [List.eq_of_mem_replicate h]
      simp
  · intro k hk operand hbr
    rw [c5FwdProgram_get k hk] at hbr
    by_cases h0 : k = 0
    · rw [if_pos h0] at hbr
      rcases hbr with h | h | h
      · exact ⟨h0, by injection h with h2; exact h2.symm⟩
      · exact Instruction.noConfusion h
      · exact Instruction.noConfusion h
    · rw [if_neg h0] at hbr
      rcases hbr with h | h | h <;> exact Instruction.noConfusion h
  · obtain ⟨mem, hasm⟩ := assembleGo_ok_of_words c5FwdProgram c5FwdProgram 0
      (fun _ => 0) (by rw [hlen])
      (fun k hk => by
        rw [c5FwdProgram_get k hk]
        by_cases h0 : k = 0
        · rw [if_pos h0]
          exact ⟨699, rfl⟩
        · rw [if_neg h0]
          exact ⟨500, rfl⟩)
    have hwords := assembleGo_ok_words c5FwdProgram c5FwdProgram 0 (fun _ => 0)
      mem hasm
    have hm0 : mem 0 = 699 := by
      obtain ⟨w, hw, hm⟩ := hwords 0 (by rw [hlen]; omega)
      rw [c5FwdProgram_get 0 _] at hw
      rw [if_pos rfl] at hw
      have h699 : Except.ok (ε := AsmError) (699 : Int) = .ok w := hw
      cases h699
      simpa using hm
    have hm99 : mem 99 = 500 := by
      obtain ⟨w, hw, hm⟩ := hwords 99 (by rw [hlen]; omega)
      rw [c5FwdProgram_get 99 _] at hw
      rw [iteNo (by omega)] at hw
      have h500 : Except.ok (ε := AsmError) (500 : Int) = .ok w := hw
      cases h500
      simpa using hm
    refine ⟨mem, hasm, ?_⟩
    have hm0c : (⟨0, 0, 0, 0, 0, mem⟩ : ExecutionState).ram
        (⟨0, 0, 0, 0, 0, mem⟩ : ExecutionState).pc.toNat = 699 := hm0
    have hs1 : step ⟨0, 0, 0, 0, 0, mem⟩ [] =
        ⟨⟨99, 699, 99, 699, 0, mem⟩, [], [], none⟩ := by
      rw [step_bra ⟨0, 0, 0, 0, 0, mem⟩ [] (by rw [hm0c]; try omega)
        (by rw [hm0c]; try omega)]
      norm_num [hm0]
    have hm99c : (⟨99, 699, 99, 699, 0, mem⟩ : ExecutionState).ram
        (⟨99, 699, 99, 699, 0, mem⟩ : ExecutionState).pc.toNat = 500 := hm99
    have hs2 : step ⟨99, 699, 99, 699, 0, mem⟩ [] =
        ⟨⟨100, 500, 0, 500, 699, mem⟩, [], [], none⟩ := by
      rw [step_lda ⟨99, 699, 99, 699, 0, mem⟩ [] (by rw [hm99c]; try omega)
        (by rw [hm99c]; try omega)]
      norm_num [show Int.toNat 99 = 99 from rfl, hm99, hm0]
    have hrun : run mem [] 200 = runLoop 200 ⟨0, 0, 0, 0, 0, mem⟩ [] [] 0 := rfl
    have e1 : runLoop 200 ⟨0, 0, 0, 0, 0, mem⟩ [] [] 0 =
        runLoop 199 ⟨99, 699, 99, 699, 0, mem⟩ [] [] 1 := by
      rw [runLoop_succ_ok 199 ⟨0, 0, 0, 0, 0, mem⟩ [] [] 0 (by rw [hs1])]
      rw [hs1]
      norm_num
    have e2 : runLoop 199 ⟨99, 699, 99, 699, 0, mem⟩ [] [] 1 =
        .halted ⟨100, 500, 0, 500, 699, mem⟩ [] 2 := by
      rw [runLoop_succ_ok 198 ⟨99, 699, 99, 699, 0, mem⟩ [] [] 1 (by rw [hs2])]
      rw [hs2]
      norm_num
    rw [hrun, e1, e2]
    rfl

/-- Instructions that assemble to straight-line words: LDA/ADD/SUB with a
literal address operand in [0, 99], and OUT/OTC. -/
def straightInstruction : Instruction → Bool
  | .LDA (.Value v) => decide (0 ≤ v) && decide (v ≤ 99)
  | .ADD (.Value v) => decide (0 ≤ v) && decide (v ≤ 99)
  | .SUB (.Value v) => decide (0 ≤ v) && decide (v ≤ 99)
  | .OUT => true
  | .OTC => true
  | _ => false

/-- A straight-line instruction assembles, and its word is a straight-line
word. -/
theorem straightInstruction_word (program : Program) (instruction : Instruction)
    (h : straightInstruction instruction = true) :
    ∃ w, assembleWord instruction program = .ok w ∧ StraightWord w := by
  cases instruction with
  | LDA operand =>
    cases operand with
    | Value v =>
      simp only [straightInstruction, Bool.and_eq_true, decide_eq_true_eq] at h
      exact ⟨500 + v, rfl, Or.inr (Or.inl ⟨by omega, by omega⟩)⟩
    | Label l => simp [straightInstruction] at h
  | ADD operand =>
    cases operand with
    | Value v =>
      simp only [straightInstruction, Bool.and_eq_true, decide_eq_true_eq] at h
      exact ⟨100 + v, rfl, Or.inl ⟨by omega, by omega⟩⟩
    | Label l => simp [straightInstruction] at h
  | SUB operand =>
    cases operand with
    | Value v =>
      simp only [straightInstruction, Bool.and_eq_true, decide_eq_true_eq] at h
      exact ⟨200 + v, rfl, Or.inl ⟨by omega, by omega⟩⟩
    | Label l => simp [straightInstruction] at h
  | OUT => exact ⟨902, rfl, Or.inr (Or.inr (Or.inl rfl))⟩
  | OTC => exact ⟨922, rfl, Or.inr (Or.inr (Or.inr rfl))⟩
  | STA operand => simp [straightInstruction] at h
  | INP => simp [straightInstruction] at h
  | HLT => simp [straightInstruction] at h
  | BRZ operand => simp [straightInstruction] at h
  | BRP operand => simp [straightInstruction] at h
  | BRA operand => simp [straightInstruction] at h
  | DAT operand => simp [straightInstruction] at h

/-- C5 (amended): the run loop halts normally exactly under the two
conditions cir = 0 (HLT, setting the sentinel pc = -1) or pc > 99 after a
step; the program consisting solely of HLT halts after exactly one step
with no output and pc = -1; and a program of 100 instructions that are all
straight-line (LDA/ADD/SUB with literal address operands in [0, 99], OUT,
OTC — in particular no HLT and no branch of any kind) halts after exactly
100 steps without error.  (The original claim allowed forward branches,
which is refuted by `c5_counterexample_forward_branch`.) -/
theorem c5_halt_conditions_amended (program : Program)
    (hlen : program.length = 100)
    (hstraight : ∀ pair, pair ∈ program → straightInstruction pair.2 = true) :
    (∀ fuel s inputs outs n s2 outs2 n2,
      runLoop fuel s inputs outs n = .halted s2 outs2 n2 →
      s2.pc = -1 ∨ 99 < s2.pc) ∧
    (∀ (s : ExecutionState) (inputs : List Int), 0 ≤ s.pc →
      ((step s inputs).state.pc = -1 ↔ s.ram s.pc.toNat = 0)) ∧
    (∃ mem, assemble [(Label.None, Instruction.HLT)] = .ok mem ∧
      ∃ sf, run mem [] 10 = .halted sf [] 1 ∧ sf.pc = -1) ∧
    (∀ inputs, ∃ mem, assemble program = .ok mem ∧
      ∃ s2 outs2, run mem inputs 100 = .halted s2 outs2 100 ∧ 99 < s2.pc) := by
  refine ⟨fun fuel s inputs outs n s2 outs2 n2 h =>
      runLoop_halted_conditions fuel s inputs outs n s2 outs2 n2 h,
    fun s inputs h0 => step_pc_terminal_iff s inputs h0, ?_, ?_⟩
  · obtain ⟨mem, hasm⟩ := assembleGo_ok_of_words
      [((Label.None : Label), Instruction.HLT)]
      [((Label.None : Label), Instruction.HLT)] 0 (fun _ => 0) (by norm_num)
      (fun k hk => match k, hk with
        | 0, _ => ⟨0, rfl⟩
        | n + 1, hk => absurd hk (by simp))
    have hm0 : mem 0 = 0 := by
      obtain ⟨w, hw, hm⟩ := assembleGo_ok_words
        [((Label.None : Label), Instruction.HLT)]
        [((Label.None : Label), Instruction.HLT)] 0 (fun _ => 0) mem hasm 0
        (by norm_num)
      have h0 : Except.ok (ε := AsmError) (0 : Int) = .ok w := hw
      cases h0
      simpa using hm
    have hm0c : (⟨0, 0, 0, 0, 0, mem⟩ : ExecutionState).ram
        (⟨0, 0, 0, 0, 0, mem⟩ : ExecutionState).pc.toNat = 0 := hm0
    have hs := step_hlt ⟨0, 0, 0, 0, 0, mem⟩ [] hm0c
    refine ⟨mem, hasm, ⟨-1, 0, 0, 0, 0, mem⟩, ?_, rfl⟩
    have hrun : run mem [] 10 = runLoop 10 ⟨0, 0, 0, 0, 0, mem⟩ [] [] 0 := rfl
    rw [hrun, runLoop_succ_ok 9 ⟨0, 0, 0, 0, 0, mem⟩ [] [] 0 (by rw [hs])]
    rw [hs]
    norm_num
  · intro inputs
    obtain ⟨mem, hasm⟩ := assembleGo_ok_of_words program program 0 (fun _ => 0)
      (by omega)
      (fun k hk =>
        ((straightInstruction_word program (program.get ⟨k, hk⟩).2
          (hstraight (program.get ⟨k, hk⟩) (List.get_mem program _ _))).imp
          (fun w hw => hw.1)))
    have hwords := assembleGo_ok_words program program 0 (fun _ => 0) mem hasm
    have hsw : ∀ i : Nat, i ≤ 99 → StraightWord (mem i) := by
      intro i hi
      have hiL : i < program.length := by omega
      obtain ⟨w, hw, hmem⟩ := hwords i hiL
      obtain ⟨w2, hw2, hsw2⟩ := straightInstruction_word program
        (program.get ⟨i, hiL⟩).2
        (hstraight (program.get ⟨i, hiL⟩) (List.get_mem program _ _))
      rw [hw] at hw2
      have hww : w = w2 := by
        cases hw2
        rfl
      rw [show mem i = w from by simpa using hmem, hww]
      exact hsw2
    obtain ⟨s2, outs2, hrun, hpc⟩ := straight_run 100 ⟨0, 0, 0, 0, 0, mem⟩
      inputs [] 0 hsw (by norm_num) (by omega) (by omega)
    refine ⟨mem, hasm, s2, outs2, ?_, by omega⟩
    have hrun0 : run mem inputs 100 =
        runLoop 100 ⟨0, 0, 0, 0, 0, mem⟩ inputs [] 0 := rfl
    rw [hrun0, hrun]

/-- Witness for the amended C5: one hundred `LDA 0` instructions assemble
and run to normal termination in exactly 100 steps. -/
theorem c5_halt_conditions_amended_witness :
    ∃ mem,
      assemble (List.replicate 100 ((Label.None : Label),
        Instruction.LDA (.Value 0))) = .ok mem ∧
      ∃ s2 outs2, run mem [] 100 = .halted s2 outs2 100 ∧ 99 < s2.pc := by
  have h := c5_halt_conditions_amended
    (List.replicate 100 ((Label.None : Label), Instruction.LDA (.Value 0)))
    (by simp)
    (fun pair hmem => by rw [List.eq_of_mem_replicate hmem]; rfl)
  exact h.2.2.2 []

end LMC
